import Mathlib

/-!
Shallow embedding of the ffsim FCI contraction module (ffsim/fci.py) together
with proofs about its contraction routines.

Conventions of the embedding:
 - numpy arrays become total functions from natural-number indices to scalars;
   a CI vector is a function from the flat index, and reshaping to the
   (alpha address, beta address) matrix view is explicit index arithmetic;
 - scalars are a commutative ring or field parameter, instantiated at ℚ, ℝ or
   ℂ where a claim needs it;
 - Python integers are Nat or Int, and the exact binomial of
   scipy.special.comb (with exact=True) is translated with its out-of-range
   convention and its falling-factorial loop;
 - external collaborators of the module (the pyscf link-index generator, the
   pyscf real single-excitation primitive contract_1e, the pyscf occupation
   list generator) and the compiled kernels of ffsim are not part of the
   source tree; they are either explicit parameters of the embedded
   functions or definitions whose doc comment starts with
   "Modelled from the spec:";
 - the in-place numpy mutation questions are settled against a small
   explicit heap model in which arrays are values at references.
-/

namespace FfsimFci

/-! ## Dimension bookkeeping (get_dimension, scipy.special.comb) -/

/-- Falling-factorial loop of scipy.special.comb with exact=True: with
nterms = t, the numerator is the product of (n - j) for j below t and the
denominator is the factorial of t; the division is exact integer division. -/
def combLoop (n t : Nat) : Nat :=
  (∏ j ∈ Finset.range t, (n - j)) / Nat.factorial t

/-- Exact binomial coefficient as computed by scipy.special.comb with
exact=True: it returns 0 when k is negative or exceeds n, otherwise it runs
the falling-factorial loop with nterms = min k (n - k). -/
def comb (n : Nat) (k : Int) : Nat :=
  if k < 0 ∨ (n : Int) < k then 0 else combLoop n (min k.toNat (n - k.toNat))

/-- Embedding of get_dimension: the product of the two sector binomials,
each computed by the exact comb. -/
def get_dimension (norb : Nat) (nelec : Int × Int) : Nat :=
  comb norb nelec.1 * comb norb nelec.2

/-! ## Occupation lists and basis vectors -/

/-- Modelled from the spec: the external occupation-list generator
(pyscf cistring, used by contract_diag_coulomb and contract_num_op_sum as
the default occupations). Per address of one spin sector it gives the
ascending list of occupied orbital indices, a fixed canonical enumeration
of the k-subsets of the orbitals below norb. -/
def gen_occslst (norb k : Nat) : List (List Nat) :=
  List.sublistsLen k (List.range norb)

/-- Modelled from the spec: the external address-space dimension
(pyscf cistring.num_strings), the binomial coefficient C(norb, k). -/
def num_strings (norb k : Nat) : Nat :=
  Nat.choose norb k

section Ring

variable {K : Type} [CommRing K]

/-- A CI vector that is a single Slater-determinant basis vector: unit
amplitude at flat index t, zero elsewhere. -/
def basis (t : Nat) : Nat → K :=
  fun k => if k = t then 1 else 0

end Ring

/-! ## Link index (ExcitationTable) data -/

/-- One entry of an excitation table: create orbital a, annihilate orbital
i, destination address str1, fermionic sign. -/
structure LinkEntry where
  a : Nat
  i : Nat
  str1 : Nat
  sign : Int

/-- The excitation table of one address: its list of entries. -/
abbrev LinkTab := List LinkEntry

/-- An excitation table for one spin sector: one table per source address. -/
abbrev LinkIndex := List LinkTab

/-- Default entry used when indexing past the end of a table; it never
contributes because such indices are outside the summation ranges. -/
def defaultEntry : LinkEntry := ⟨0, 0, 0, 0⟩

/-- The nelec argument of contract_2e: either a single total particle
count or an explicit (alpha, beta) pair. -/
inductive NelecArg where
  | total (n : Nat)
  | pair (p : Nat × Nat)

/-- The nelec normalization at the top of contract_2e: an integer n is
split as nelecb = n / 2 (floor) and neleca = n - nelecb; a pair is used
as given. -/
def nelec_pair : NelecArg → Nat × Nat
  | .total n => (n - n / 2, n / 2)
  | .pair p => p

/-! ## contract_2e (two-body generic contraction) -/

section Ring2

variable {K : Type} [CommRing K]

/-- First pass of contract_2e: the intermediate tensor t1 indexed by
(orbital a, orbital i, alpha address, beta address). The alpha loop
accumulates sign times ci0 at row str0 into slot (a, i, str1); the beta
loop accumulates sign times the column str0 into slot (a, i, :, str1). -/
def c2e_t1 (linka linkb : LinkIndex) (ci0 : Nat → Nat → K)
    (a i A B : Nat) : K :=
  (∑ s ∈ Finset.range linka.length,
    ∑ p ∈ Finset.range ((linka.getD s []).length),
      (fun e : LinkEntry =>
        if e.a = a ∧ e.i = i ∧ e.str1 = A then (e.sign : K) * ci0 s B else 0)
        ((linka.getD s []).getD p defaultEntry))
  + (∑ s ∈ Finset.range linkb.length,
      ∑ p ∈ Finset.range ((linkb.getD s []).length),
        (fun e : LinkEntry =>
          if e.a = a ∧ e.i = i ∧ e.str1 = B then (e.sign : K) * ci0 A s else 0)
          ((linkb.getD s []).getD p defaultEntry))

/-- Dense contraction step of contract_2e, the einsum bjai,aiAB->bjAB:
contract the reshaped two-body tensor against t1 over its first two
orbital indices. -/
def c2e_t1p (eri : Nat → Nat → Nat → Nat → K) (norb : Nat)
    (t1 : Nat → Nat → Nat → Nat → K) (b j A B : Nat) : K :=
  ∑ a ∈ Finset.range norb, ∑ i ∈ Finset.range norb, eri b j a i * t1 a i A B

/-- Second pass of contract_2e: accumulate the contracted tensor back
through the same excitation tables into the output matrix. -/
def c2e_out (linka linkb : LinkIndex) (t1p : Nat → Nat → Nat → Nat → K)
    (A B : Nat) : K :=
  (∑ s ∈ Finset.range linka.length,
    ∑ p ∈ Finset.range ((linka.getD s []).length),
      (fun e : LinkEntry =>
        if e.str1 = A then (e.sign : K) * t1p e.a e.i s B else 0)
        ((linka.getD s []).getD p defaultEntry))
  + (∑ s ∈ Finset.range linkb.length,
      ∑ p ∈ Finset.range ((linkb.getD s []).length),
        (fun e : LinkEntry =>
          if e.str1 = B then (e.sign : K) * t1p e.a e.i A s else 0)
          ((linkb.getD s []).getD p defaultEntry))

/-- Embedding of contract_2e. The external pyscf link-index generator
(cistring.gen_linkstr_index) is passed as the explicit parameter genLink;
it is only consulted when no cached link index is supplied. The CI vector
is flat; the matrix view and the final reshape are index arithmetic with
nb = num_strings norb nelecb columns. -/
def contract_2e (genLink : Nat → Nat → LinkIndex)
    (eri : Nat → Nat → Nat → Nat → K) (fcivec : Nat → K) (norb : Nat)
    (nelec : NelecArg) (linkIndex : Option (LinkIndex × LinkIndex)) :
    Nat → K :=
  let ne2 := nelec_pair nelec
  let links := linkIndex.getD (genLink norb ne2.1, genLink norb ne2.2)
  let nb := num_strings norb ne2.2
  let ci0 : Nat → Nat → K := fun s t => fcivec (s * nb + t)
  fun k =>
    c2e_out links.1 links.2 (c2e_t1p eri norb (c2e_t1 links.1 links.2 ci0))
      (k / nb) (k % nb)

/-! ## contract_1e (pyscf real single-excitation primitive) -/

/-- Common summation shape of contract_1e: one pass of one spin sector.
For every source address s and entry e of its table with destination
matching tgt, accumulate sign times the supplied amplitude at s times the
matrix element at (e.a, e.i). -/
def c1eSum (h : Nat → Nat → K) (link : LinkIndex) (tgt : Nat)
    (c : Nat → K) : K :=
  ∑ s ∈ Finset.range link.length,
    ∑ p ∈ Finset.range ((link.getD s []).length),
      (fun e : LinkEntry =>
        if e.str1 = tgt then (e.sign : K) * c s * h e.a e.i else 0)
        ((link.getD s []).getD p defaultEntry)

/-- Modelled from the spec: the external real single-excitation primitive
(pyscf direct_nosym.contract_1e), the building block f of the one-body
contraction. It applies the one-body operator with matrix h through the
two excitation tables: each table entry (a, i, str1, sign) sends the
amplitude of its source address, weighted by sign times h a i, to the
destination address str1, on the alpha axis and on the beta axis. The
number of beta strings is read off the beta table length, as pyscf reads
it off the link-index shape. The definition is scalar-generic; the claims
use it at ℝ (the primitive itself) and at ℂ (the direct complex
application of the one-body operator). -/
def contract_1e (h : Nat → Nat → K) (fcivec : Nat → K) (norb : Nat)
    (nelec : Nat × Nat) (linka linkb : LinkIndex) : Nat → K :=
  let nb := linkb.length
  let ci0 : Nat → Nat → K := fun s t => fcivec (s * nb + t)
  fun k =>
    c1eSum h linka (k / nb) (fun s => ci0 s (k % nb))
      + c1eSum h linkb (k % nb) (fun s => ci0 (k / nb) s)

/-! ## Diagonal-Coulomb and number-operator kernels and wrappers -/

/-- Sum of the coefficients of the occupied orbitals of one address, the
per-address eigenvalue contribution of a number-operator sum. -/
def occ_coeff_sum (coeffs : Nat → K) (occ : List Nat) : K :=
  ∑ p ∈ Finset.range occ.length, coeffs (occ.getD p 0)

/-- Modelled from the spec: the compiled kernel
contract_num_op_sum_spin_into_buffer. For one spin sector it adds to every
entry of the output buffer the corresponding entry of vec scaled by the sum
of the coefficients of the orbitals occupied in its row address. -/
def contract_num_op_sum_spin_into_buffer (vec : Nat → Nat → K)
    (coeffs : Nat → K) (occupations : List (List Nat))
    (out : Nat → Nat → K) : Nat → Nat → K :=
  fun i j => out i j + occ_coeff_sum coeffs (occupations.getD i []) * vec i j

/-- Embedding of contract_num_op_sum: reshape, apply the kernel on the
alpha axis into a zero buffer, transpose and apply it on the beta axis,
undo the transpose and flatten. Optional occupations default to the
canonical occupation lists. -/
def contract_num_op_sum (vec : Nat → K) (coeffs : Nat → K) (norb : Nat)
    (nelec : Nat × Nat) (occupations_a occupations_b : Option (List (List Nat))) :
    Nat → K :=
  let occA := occupations_a.getD (gen_occslst norb nelec.1)
  let occB := occupations_b.getD (gen_occslst norb nelec.2)
  let dimb := comb norb (nelec.2 : Int)
  let v2 : Nat → Nat → K := fun i j => vec (i * dimb + j)
  let out1 := contract_num_op_sum_spin_into_buffer v2 coeffs occA (fun _ _ => 0)
  let out2T := contract_num_op_sum_spin_into_buffer (fun i j => v2 j i) coeffs
    occB (fun i j => out1 j i)
  fun k => out2T (k % dimb) (k / dimb)

/-- Same-spin part of the determinant eigenvalue as the kernel computes
it: every unordered pair of occupied positions counted once (position
pairs p less or equal q) of the supplied, already diagonal-halved,
matrix. -/
def same_spin_sum (m : Nat → Nat → K) (occ : List Nat) : K :=
  ∑ p ∈ Finset.range occ.length, ∑ q ∈ Finset.range occ.length,
    if p ≤ q then m (occ.getD p 0) (occ.getD q 0) else 0

/-- Cross-spin part of the determinant eigenvalue: the full double sum of
the cross-spin matrix over occupied alpha and occupied beta orbitals. -/
def cross_sum (m : Nat → Nat → K) (oa ob : List Nat) : K :=
  ∑ p ∈ Finset.range oa.length, ∑ q ∈ Finset.range ob.length,
    m (oa.getD p 0) (ob.getD q 0)

/-- Modelled from the spec: the compiled kernel
contract_diag_coulomb_into_buffer. It scales every amplitude of vec by the
eigenvalue of its determinant and adds the result to the output buffer.
The same-spin matrix it receives already has its diagonal halved by the
wrapper, and the kernel counts every unordered same-spin occupied pair
once, so that off-diagonal unordered pairs enter once at full weight and
diagonal terms enter at half weight; together that reproduces one half of
the full same-spin double sum of the original symmetric matrix. The
cross-spin matrix enters through the full double sum over occupied alpha
and beta orbitals. -/
def contract_diag_coulomb_into_buffer (vec : Nat → Nat → K)
    (mat : Nat → Nat → K) (norb : Nat) (mat_alpha_beta : Nat → Nat → K)
    (occupations_a occupations_b : List (List Nat))
    (out : Nat → Nat → K) : Nat → Nat → K :=
  fun ia ib =>
    out ia ib
      + (same_spin_sum mat (occupations_a.getD ia [])
          + same_spin_sum mat (occupations_b.getD ib [])
          + cross_sum mat_alpha_beta (occupations_a.getD ia [])
              (occupations_b.getD ib []))
        * vec ia ib

end Ring2

section FieldDefs

variable {K : Type} [Field K]

/-- The in-place statement mat[np.diag_indices(norb)] *= 0.5 as a value:
halve the first norb diagonal entries of the matrix. -/
def halve_diag (norb : Nat) (m : Nat → Nat → K) : Nat → Nat → K :=
  fun i j => if i = j ∧ i < norb then m i j * (1 / 2) else m i j

/-- Embedding of contract_diag_coulomb: default the cross-spin matrix to
the (original) same-spin matrix, default the occupations to the canonical
occupation lists, copy the matrix and halve its diagonal, reshape the
vector, run the kernel into a zero buffer and flatten the result. -/
def contract_diag_coulomb (vec : Nat → K) (mat : Nat → Nat → K)
    (norb : Nat) (nelec : Nat × Nat)
    (mat_alpha_beta : Option (Nat → Nat → K))
    (occupations_a occupations_b : Option (List (List Nat))) : Nat → K :=
  let matAB := mat_alpha_beta.getD mat
  let occA := occupations_a.getD (gen_occslst norb nelec.1)
  let occB := occupations_b.getD (gen_occslst norb nelec.2)
  let dimb := comb norb (nelec.2 : Int)
  let matH := halve_diag norb mat
  let v2 : Nat → Nat → K := fun i j => vec (i * dimb + j)
  let out := contract_diag_coulomb_into_buffer v2 matH norb matAB occA occB
    (fun _ _ => 0)
  fun k => out (k / dimb) (k % dimb)

end FieldDefs

/-! ## Linear operator adapters -/

/-- The numpy scalar dtypes that occur in the module. -/
inductive DType where
  | float64
  | complex128
deriving DecidableEq

/-- A scipy LinearOperator as the module constructs it: a square shape of
the given dimension, a forward apply, an adjoint apply and a declared
scalar dtype. -/
structure LinOp (K : Type) where
  dim : Nat
  matvec : (Nat → K) → (Nat → K)
  rmatvec : (Nat → K) → (Nat → K)
  dtype : DType

section AdapterDefs

variable {K : Type} [Field K]

/-- Embedding of num_op_sum_to_linop: precompute the occupation lists and
wrap contract_num_op_sum as a LinearOperator, with the adjoint equal to
the forward apply and the declared dtype that of the coefficient array. -/
def num_op_sum_to_linop (coeffs : Nat → K) (coeffsDtype : DType)
    (norb : Nat) (nelec : Nat × Nat) : LinOp K :=
  let occA := gen_occslst norb nelec.1
  let occB := gen_occslst norb nelec.2
  { dim := get_dimension norb ((nelec.1 : Int), (nelec.2 : Int))
    matvec := fun vec =>
      contract_num_op_sum vec coeffs norb nelec (some occA) (some occB)
    rmatvec := fun vec =>
      contract_num_op_sum vec coeffs norb nelec (some occA) (some occB)
    dtype := coeffsDtype }

/-- Embedding of diag_coulomb_to_linop: precompute the occupation lists
and wrap contract_diag_coulomb as a LinearOperator, with the adjoint equal
to the forward apply and the declared dtype that of the matrix. -/
def diag_coulomb_to_linop (mat : Nat → Nat → K) (matDtype : DType)
    (norb : Nat) (nelec : Nat × Nat)
    (mat_alpha_beta : Option (Nat → Nat → K)) : LinOp K :=
  let occA := gen_occslst norb nelec.1
  let occB := gen_occslst norb nelec.2
  { dim := get_dimension norb ((nelec.1 : Int), (nelec.2 : Int))
    matvec := fun vec =>
      contract_diag_coulomb vec mat norb nelec mat_alpha_beta (some occA)
        (some occB)
    rmatvec := fun vec =>
      contract_diag_coulomb vec mat norb nelec mat_alpha_beta (some occA)
        (some occB)
    dtype := matDtype }

/-- Embedding of get_hamiltonian_linop. The external pyscf collaborators
are explicit parameters: genLink generates the link tables that are cached
and supplied to contract_2e, and absorb is absorb_h1e, called with the
documented scalar prefactor one half. The declared dtype is that of the
one-body tensor. -/
def get_hamiltonian_linop (genLink : Nat → Nat → LinkIndex)
    (absorb : (Nat → Nat → K) → (Nat → Nat → Nat → Nat → K) → Nat →
      Nat × Nat → K → (Nat → Nat → Nat → Nat → K))
    (one_body_tensor : Nat → Nat → K) (oneBodyDtype : DType)
    (two_body_tensor : Nat → Nat → Nat → Nat → K) (norb : Nat)
    (nelec : Nat × Nat) : LinOp K :=
  let linka := genLink norb nelec.1
  let linkb := genLink norb nelec.2
  let two_body := absorb one_body_tensor two_body_tensor norb nelec (1 / 2)
  { dim := get_dimension norb ((nelec.1 : Int), (nelec.2 : Int))
    matvec := fun vec =>
      contract_2e genLink two_body vec norb (.pair nelec) (some (linka, linkb))
    rmatvec := fun vec =>
      contract_2e genLink two_body vec norb (.pair nelec) (some (linka, linkb))
    dtype := oneBodyDtype }

end AdapterDefs

/-- The four-part real decomposition that the matvec of
one_body_tensor_to_linop computes: the real primitive applied to the four
combinations of real and imaginary parts of the matrix and of the vector,
recombined with the imaginary unit. -/
def one_body_matvec (M : Nat → Nat → ℂ) (norb : Nat) (nelec : Nat × Nat)
    (linka linkb : LinkIndex) (v : Nat → ℂ) : Nat → ℂ :=
  fun k =>
    ((contract_1e (fun p q => (M p q).re) (fun j => (v j).re) norb nelec
        linka linkb k : ℝ) : ℂ)
      + Complex.I * ((contract_1e (fun p q => (M p q).im)
          (fun j => (v j).re) norb nelec linka linkb k : ℝ) : ℂ)
      + Complex.I * ((contract_1e (fun p q => (M p q).re)
          (fun j => (v j).im) norb nelec linka linkb k : ℝ) : ℂ)
      - ((contract_1e (fun p q => (M p q).im) (fun j => (v j).im) norb nelec
          linka linkb k : ℝ) : ℂ)

/-- The conjugate transpose of a complex matrix, as
one_body_tensor.T.conj() computes it. -/
def conj_transpose (M : Nat → Nat → ℂ) : Nat → Nat → ℂ :=
  fun p q => (starRingEnd ℂ) (M q p)

/-- Embedding of one_body_tensor_to_linop: cache the link tables from the
external generator, apply the four-part real decomposition forward, apply
it with the conjugate-transposed matrix as the adjoint, and declare the
dtype complex unconditionally. -/
def one_body_tensor_to_linop (genLink : Nat → Nat → LinkIndex)
    (M : Nat → Nat → ℂ) (tensorDtype : DType) (norb : Nat)
    (nelec : Nat × Nat) : LinOp ℂ :=
  let linka := genLink norb nelec.1
  let linkb := genLink norb nelec.2
  { dim := get_dimension norb ((nelec.1 : Int), (nelec.2 : Int))
    matvec := fun v => one_body_matvec M norb nelec linka linkb v
    rmatvec := fun v =>
      one_body_matvec (conj_transpose M) norb nelec linka linkb v
    dtype := .complex128 }

/-! ## Heap model for the mutation claims -/

section HeapDefs

variable {K : Type} [Field K]

/-- A heap of numpy arrays: a bump-allocated store of two-dimensional
array values. One-dimensional arrays are stored in row 0. -/
structure Heap (K : Type) where
  size : Nat
  data : Nat → Nat → Nat → K

/-- Read the array value at a reference. -/
def heapGet (h : Heap K) (r : Nat) : Nat → Nat → K :=
  h.data r

/-- Allocate a fresh array holding the given value; returns the new heap
and the fresh reference. -/
def heapAlloc (h : Heap K) (a : Nat → Nat → K) : Heap K × Nat :=
  (⟨h.size + 1, fun r => if r = h.size then a else h.data r⟩, h.size)

/-- Overwrite the array at a reference in place. -/
def heapSet (h : Heap K) (r : Nat) (a : Nat → Nat → K) : Heap K :=
  ⟨h.size, fun x => if x = r then a else h.data x⟩

/-- Embedding of contract_diag_coulomb with the caller-visible arrays held
in an explicit heap, mirroring the source line by line: the cross-spin
default binds the same array object as mat; mat.copy() allocates a fresh
array; the in-place diagonal halving writes to that copy; the kernel reads
the arrays and writes a freshly allocated output returned by value. The
result is the final heap together with the output vector. -/
def contract_diag_coulomb_heap (h0 : Heap K) (vecRef matRef : Nat)
    (norb : Nat) (nelec : Nat × Nat) (matABRef : Option Nat)
    (occupations_a occupations_b : Option (List (List Nat))) :
    Heap K × (Nat → K) :=
  let abRef := matABRef.getD matRef
  let occA := occupations_a.getD (gen_occslst norb nelec.1)
  let occB := occupations_b.getD (gen_occslst norb nelec.2)
  let alloc := heapAlloc h0 (heapGet h0 matRef)
  let h1 := alloc.1
  let cRef := alloc.2
  let h2 := heapSet h1 cRef (halve_diag norb (heapGet h1 cRef))
  let dimb := comb norb (nelec.2 : Int)
  let vec : Nat → K := fun k => heapGet h2 vecRef 0 k
  let v2 : Nat → Nat → K := fun i j => vec (i * dimb + j)
  let out := contract_diag_coulomb_into_buffer v2 (heapGet h2 cRef) norb
    (heapGet h2 abRef) occA occB (fun _ _ => 0)
  (h2, fun k => out (k / dimb) (k % dimb))

end HeapDefs

/-! ## Helper lemmas -/

/-- The falling-factorial loop computes the binomial coefficient. -/
theorem combLoop_eq_choose (n t : Nat) : combLoop n t = n.choose t := by
  rw [combLoop, ← Nat.descFactorial_eq_prod_range,
    Nat.choose_eq_descFactorial_div_factorial]

/-- On nonnegative in-range and out-of-range inputs alike, comb agrees
with the binomial coefficient. -/
theorem comb_eq_choose (n k : Nat) : comb n (k : Int) = n.choose k := by
  by_cases h : k ≤ n
  · rw [comb, if_neg (by omega)]
    have hk : (k : Int).toNat = k := Int.toNat_natCast k
    rw [hk]
    rcases le_total k (n - k) with hmin | hmin
    · rw [min_eq_left hmin, combLoop_eq_choose]
    · rw [min_eq_right hmin, combLoop_eq_choose]
      exact Nat.choose_symm h
  · rw [comb, if_pos (by omega), eq_comm]
    exact Nat.choose_eq_zero_of_lt (by omega)

/-- Summing a function of the entries of a list over positions equals the
list sum of the mapped list. -/
theorem sum_range_getD {K : Type} [AddCommMonoid K] {α : Type} (l : List α)
    (d : α) (g : α → K) :
    ∑ p ∈ Finset.range l.length, g (l.getD p d) = (l.map g).sum := by
  induction l with
  | nil => simp
  | cons a t ih =>
    rw [List.length_cons, Finset.sum_range_succ']
    simp only [List.getD_cons_succ, List.getD_cons_zero, List.map_cons,
      List.sum_cons]
    rw [ih]
    exact add_comm _ _

/-- For a duplicate-free list, summing over positions equals summing over
the set of elements. -/
theorem range_getD_eq_toFinset_sum {K : Type} [AddCommMonoid K]
    (l : List Nat) (hl : l.Nodup) (g : Nat → K) :
    ∑ p ∈ Finset.range l.length, g (l.getD p 0) = ∑ x ∈ l.toFinset, g x := by
  rw [sum_range_getD]
  exact (List.sum_toFinset g hl).symm

/-- The canonical occupation list of a sector has one entry per address. -/
theorem gen_occslst_length (norb k : Nat) :
    (gen_occslst norb k).length = Nat.choose norb k := by
  rw [gen_occslst, List.length_sublistsLen, List.length_range]

/-- Every entry of the canonical occupation list is duplicate-free and
contains only orbitals below norb. -/
theorem gen_occslst_mem_props {norb k : Nat} {occ : List Nat}
    (h : occ ∈ gen_occslst norb k) :
    occ.Nodup ∧ ∀ x ∈ occ, x < norb := by
  rw [gen_occslst] at h
  have h2 := List.mem_sublistsLen.mp h
  exact ⟨List.Nodup.sublist h2.1 (List.nodup_range norb),
    fun x hx => List.mem_range.mp (h2.1.subset hx)⟩

/-- The occupation list selected by an in-range address is duplicate-free
and lies below norb. -/
theorem gen_occslst_getD_props (norb k i : Nat)
    (hi : i < comb norb (k : Int)) :
    ((gen_occslst norb k).getD i []).Nodup ∧
      ∀ x ∈ (gen_occslst norb k).getD i [], x < norb := by
  have hlen : i < (gen_occslst norb k).length := by
    rw [gen_occslst_length]
    rwa [comb_eq_choose] at hi
  have hmem : (gen_occslst norb k).getD i [] ∈ gen_occslst norb k := by
    rw [List.getD_eq_getElem _ _ hlen]
    exact List.getElem_mem hlen
  exact gen_occslst_mem_props hmem

/-- Division part of the flat CI index arithmetic. -/
theorem flat_div (ia ib db : Nat) (h : ib < db) : (ia * db + ib) / db = ia := by
  rw [Nat.mul_comm ia db,
    Nat.mul_add_div (Nat.lt_of_le_of_lt (Nat.zero_le ib) h),
    Nat.div_eq_of_lt h, Nat.add_zero]

/-- Remainder part of the flat CI index arithmetic. -/
theorem flat_mod (ia ib db : Nat) (h : ib < db) : (ia * db + ib) % db = ib := by
  rw [Nat.mul_comm ia db, Nat.mul_add_mod, Nat.mod_eq_of_lt h]

/-- Recomposing a flat index from its row and column. -/
theorem flat_recompose (k db : Nat) : k / db * db + k % db = k := by
  rw [Nat.mul_comm]
  exact Nat.div_add_mod k db

/-- In a duplicate-free list, equal entries sit at equal positions. -/
theorem nodup_getD_inj (l : List Nat) (hl : l.Nodup) {p q : Nat}
    (hp : p < l.length) (hq : q < l.length)
    (h : l.getD p 0 = l.getD q 0) : p = q := by
  rw [List.getD_eq_getElem _ _ hp, List.getD_eq_getElem _ _ hq] at h
  have hinj := List.nodup_iff_injective_get.mp hl
  have h2 : l.get ⟨p, hp⟩ = l.get ⟨q, hq⟩ := by
    simpa [List.get_eq_getElem] using h
  exact Fin.mk_eq_mk.mp (hinj h2)

/-- The per-address coefficient sum over a duplicate-free occupation list
is the sum over its set of occupied orbitals. -/
theorem occ_coeff_sum_eq_toFinset {K : Type} [CommRing K] (coeffs : Nat → K)
    (l : List Nat) (hl : l.Nodup) :
    occ_coeff_sum coeffs l = ∑ x ∈ l.toFinset, coeffs x := by
  rw [occ_coeff_sum]
  exact range_getD_eq_toFinset_sum l hl coeffs

/-- The cross-spin kernel sum over duplicate-free occupation lists is the
double sum over the two sets of occupied orbitals. -/
theorem cross_sum_eq_toFinset {K : Type} [CommRing K] (m : Nat → Nat → K)
    (oa ob : List Nat) (ha : oa.Nodup) (hb : ob.Nodup) :
    cross_sum m oa ob = ∑ x ∈ oa.toFinset, ∑ y ∈ ob.toFinset, m x y := by
  rw [cross_sum]
  have hin : ∀ x : Nat, ∑ q ∈ Finset.range ob.length, m x (ob.getD q 0)
      = ∑ y ∈ ob.toFinset, m x y := fun x =>
    range_getD_eq_toFinset_sum ob hb (m x)
  simp only [hin]
  exact range_getD_eq_toFinset_sum oa ha (fun x => ∑ y ∈ ob.toFinset, m x y)

/-- Central eigenvalue identity: the kernel same-spin sum of the
diagonal-halved matrix over a duplicate-free occupation list equals one
half of the full double sum of the original symmetric matrix over the set
of occupied orbitals. -/
theorem same_spin_sum_halve_diag {K : Type} [Field K] [CharZero K]
    (norb : Nat) (mat : Nat → Nat → K) (hsym : ∀ i j, mat i j = mat j i)
    (occ : List Nat) (hnd : occ.Nodup) (hlt : ∀ x ∈ occ, x < norb) :
    same_spin_sum (halve_diag norb mat) occ
      = (1 / 2) * ∑ x ∈ occ.toFinset, ∑ y ∈ occ.toFinset, mat x y := by
  have hhalf : ∀ a : K, a * (1 / 2) + a * (1 / 2) = a := fun a => by
    rw [← mul_add]
    norm_num
  have holt : ∀ p, p < occ.length → occ.getD p 0 < norb := fun p hp =>
    hlt _ (by rw [List.getD_eq_getElem _ _ hp]; exact List.getElem_mem hp)
  have hd_symm : ∀ i j,
      halve_diag norb mat i j = halve_diag norb mat j i := by
    intro i j
    rcases eq_or_ne i j with h | h
    · rw [h]
    · simp only [halve_diag]
      rw [if_neg (fun hc => h hc.1), if_neg (fun hc => h hc.1.symm)]
      exact hsym i j
  have hswap : same_spin_sum (halve_diag norb mat) occ
      = ∑ p ∈ Finset.range occ.length, ∑ q ∈ Finset.range occ.length,
          if q ≤ p then halve_diag norb mat (occ.getD p 0) (occ.getD q 0)
          else 0 := by
    rw [same_spin_sum, Finset.sum_comm]
    refine Finset.sum_congr rfl fun p _ => Finset.sum_congr rfl fun q _ => ?_
    rw [hd_symm]
  have h2S : same_spin_sum (halve_diag norb mat) occ
        + same_spin_sum (halve_diag norb mat) occ
      = ∑ p ∈ Finset.range occ.length, ∑ q ∈ Finset.range occ.length,
          mat (occ.getD p 0) (occ.getD q 0) := by
    nth_rewrite 2 [hswap]
    simp only [same_spin_sum]
    rw [← Finset.sum_add_distrib]
    refine Finset.sum_congr rfl fun p hp => ?_
    rw [← Finset.sum_add_distrib]
    refine Finset.sum_congr rfl fun q hq => ?_
    have hp2 := Finset.mem_range.mp hp
    have hq2 := Finset.mem_range.mp hq
    rcases lt_trichotomy p q with h | h | h
    · rw [if_pos h.le, if_neg (not_le.mpr h), add_zero]
      simp only [halve_diag]
      rw [if_neg]
      intro hc
      exact Nat.ne_of_lt h (nodup_getD_inj occ hnd hp2 hq2 hc.1)
    · rw [h, if_pos le_rfl]
      simp only [halve_diag]
      rw [if_pos (by exact ⟨trivial, holt q hq2⟩)]
      exact hhalf _
    · rw [if_neg (not_le.mpr h), if_pos h.le, zero_add]
      simp only [halve_diag]
      rw [if_neg]
      intro hc
      exact Nat.ne_of_lt h (nodup_getD_inj occ hnd hq2 hp2 hc.1.symm)
  have hT : ∑ p ∈ Finset.range occ.length, ∑ q ∈ Finset.range occ.length,
        mat (occ.getD p 0) (occ.getD q 0)
      = ∑ x ∈ occ.toFinset, ∑ y ∈ occ.toFinset, mat x y := by
    have hin : ∀ x : Nat, ∑ q ∈ Finset.range occ.length, mat x (occ.getD q 0)
        = ∑ y ∈ occ.toFinset, mat x y := fun x =>
      range_getD_eq_toFinset_sum occ hnd (mat x)
    simp only [hin]
    exact range_getD_eq_toFinset_sum occ hnd
      (fun x => ∑ y ∈ occ.toFinset, mat x y)
  rw [← hT, ← h2S, mul_add, mul_comm ((1 : K) / 2)]
  exact (hhalf _).symm

/-- Casting a real single-excitation pass into the complex numbers gives
the same pass with cast matrix and cast amplitudes. -/
theorem c1eSum_ofReal (h : Nat → Nat → ℝ) (link : LinkIndex) (tgt : Nat)
    (c : Nat → ℝ) :
    ((c1eSum h link tgt c : ℝ) : ℂ)
      = c1eSum (fun p q => ((h p q : ℝ) : ℂ)) link tgt
          (fun s => ((c s : ℝ) : ℂ)) := by
  simp only [c1eSum]
  rw [Complex.ofReal_sum]
  refine Finset.sum_congr rfl fun s _ => ?_
  rw [Complex.ofReal_sum]
  refine Finset.sum_congr rfl fun p _ => ?_
  by_cases hc : ((link.getD s []).getD p defaultEntry).str1 = tgt
  · rw [if_pos hc, if_pos hc]
    push_cast
    ring
  · rw [if_neg hc, if_neg hc]
    exact Complex.ofReal_zero

/-- A complex single-excitation pass decomposes into the four real passes
over the real and imaginary parts of the matrix and of the amplitudes,
recombined with the imaginary unit. -/
theorem c1eSum_complex_combine (M : Nat → Nat → ℂ) (link : LinkIndex)
    (tgt : Nat) (c : Nat → ℂ) :
    c1eSum M link tgt c
      = ((c1eSum (fun p q => (M p q).re) link tgt (fun s => (c s).re) : ℝ) : ℂ)
        + Complex.I * ((c1eSum (fun p q => (M p q).im) link tgt
            (fun s => (c s).re) : ℝ) : ℂ)
        + Complex.I * ((c1eSum (fun p q => (M p q).re) link tgt
            (fun s => (c s).im) : ℝ) : ℂ)
        - ((c1eSum (fun p q => (M p q).im) link tgt
            (fun s => (c s).im) : ℝ) : ℂ) := by
  rw [c1eSum_ofReal, c1eSum_ofReal, c1eSum_ofReal, c1eSum_ofReal]
  simp only [c1eSum, Finset.mul_sum]
  rw [← Finset.sum_add_distrib, ← Finset.sum_add_distrib,
    ← Finset.sum_sub_distrib]
  refine Finset.sum_congr rfl fun s _ => ?_
  rw [← Finset.sum_add_distrib, ← Finset.sum_add_distrib,
    ← Finset.sum_sub_distrib]
  refine Finset.sum_congr rfl fun p _ => ?_
  by_cases hc : ((link.getD s []).getD p defaultEntry).str1 = tgt
  · rw [if_pos hc, if_pos hc, if_pos hc, if_pos hc, if_pos hc]
    apply Complex.ext <;> simp [Complex.mul_re, Complex.mul_im]
  · rw [if_neg hc, if_neg hc, if_neg hc, if_neg hc, if_neg hc]
    simp

/-- The four-part real decomposition of the one-body matvec equals the
direct application of the complex one-body operator, the same
single-excitation algorithm run at complex scalars. -/
theorem one_body_matvec_eq_complex_contract (M : Nat → Nat → ℂ)
    (v : Nat → ℂ) (norb : Nat) (nelec : Nat × Nat)
    (linka linkb : LinkIndex) (k : Nat) :
    one_body_matvec M norb nelec linka linkb v k
      = contract_1e M v norb nelec linka linkb k := by
  simp only [one_body_matvec, contract_1e]
  rw [c1eSum_complex_combine M linka, c1eSum_complex_combine M linkb]
  push_cast
  ring

/-! ## Claim theorems -/

/-- Claim C3: the forward apply of one_body_tensor_to_linop equals the
four-part decomposition f(Re M, Re v) plus i f(Im M, Re v) plus
i f(Re M, Im v) minus f(Im M, Im v) of the real single-excitation
primitive f, and that equals the direct application of the complex
one-body operator to v; the adjoint apply is the same decomposition with
the conjugate transpose of the matrix, and equals its direct complex
application. -/
theorem claim3_one_body_linop_decomposition
    (genLink : Nat → Nat → LinkIndex) (M : Nat → Nat → ℂ) (dt : DType)
    (norb : Nat) (nelec : Nat × Nat) (v : Nat → ℂ) (k : Nat) :
    ((one_body_tensor_to_linop genLink M dt norb nelec).matvec v k
        = ((contract_1e (fun p q => (M p q).re) (fun j => (v j).re) norb
              nelec (genLink norb nelec.1) (genLink norb nelec.2) k : ℝ) : ℂ)
          + Complex.I * ((contract_1e (fun p q => (M p q).im)
              (fun j => (v j).re) norb nelec (genLink norb nelec.1)
              (genLink norb nelec.2) k : ℝ) : ℂ)
          + Complex.I * ((contract_1e (fun p q => (M p q).re)
              (fun j => (v j).im) norb nelec (genLink norb nelec.1)
              (genLink norb nelec.2) k : ℝ) : ℂ)
          - ((contract_1e (fun p q => (M p q).im) (fun j => (v j).im) norb
              nelec (genLink norb nelec.1) (genLink norb nelec.2) k : ℝ) : ℂ)) ∧
      ((one_body_tensor_to_linop genLink M dt norb nelec).matvec v k
        = contract_1e M v norb nelec (genLink norb nelec.1)
            (genLink norb nelec.2) k) ∧
      ((one_body_tensor_to_linop genLink M dt norb nelec).rmatvec v k
        = ((contract_1e (fun p q => ((conj_transpose M) p q).re)
              (fun j => (v j).re) norb nelec (genLink norb nelec.1)
              (genLink norb nelec.2) k : ℝ) : ℂ)
          + Complex.I * ((contract_1e (fun p q => ((conj_transpose M) p q).im)
              (fun j => (v j).re) norb nelec (genLink norb nelec.1)
              (genLink norb nelec.2) k : ℝ) : ℂ)
          + Complex.I * ((contract_1e (fun p q => ((conj_transpose M) p q).re)
              (fun j => (v j).im) norb nelec (genLink norb nelec.1)
              (genLink norb nelec.2) k : ℝ) : ℂ)
          - ((contract_1e (fun p q => ((conj_transpose M) p q).im)
              (fun j => (v j).im) norb nelec (genLink norb nelec.1)
              (genLink norb nelec.2) k : ℝ) : ℂ)) ∧
      ((one_body_tensor_to_linop genLink M dt norb nelec).rmatvec v k
        = contract_1e (conj_transpose M) v norb nelec (genLink norb nelec.1)
            (genLink norb nelec.2) k) :=
  ⟨rfl,
    one_body_matvec_eq_complex_contract M v norb nelec _ _ k,
    rfl,
    one_body_matvec_eq_complex_contract (conj_transpose M) v norb nelec _ _ k⟩

/-- Claim C10: contract_diag_coulomb, run against an explicit heap of
array values, leaves every array of the caller untouched (the diagonal
halving happens on a freshly allocated copy only), and its result is the
value the pure embedding computes from the initial heap. -/
theorem claim10_contract_diag_coulomb_no_mutation {K : Type} [Field K]
    (h0 : Heap K) (vecRef matRef : Nat) (norb : Nat) (nelec : Nat × Nat)
    (matABRef : Option Nat) (occA occB : Option (List (List Nat)))
    (r i j k : Nat) (hr : r < h0.size) (hvec : vecRef < h0.size)
    (hab : matABRef.getD matRef < h0.size) :
    heapGet (contract_diag_coulomb_heap h0 vecRef matRef norb nelec matABRef
        occA occB).1 r i j = heapGet h0 r i j ∧
      (contract_diag_coulomb_heap h0 vecRef matRef norb nelec matABRef occA
          occB).2 k
        = contract_diag_coulomb (fun x => heapGet h0 vecRef 0 x)
            (heapGet h0 matRef) norb nelec
            (matABRef.map (fun rr => heapGet h0 rr)) occA occB k := by
  have habs : (matABRef.map (fun rr => heapGet h0 rr)).getD (heapGet h0 matRef)
      = heapGet h0 (matABRef.getD matRef) := by
    cases matABRef <;> rfl
  constructor
  · simp only [contract_diag_coulomb_heap, heapSet, heapAlloc, heapGet]
    rw [if_neg (Nat.ne_of_lt hr), if_neg (Nat.ne_of_lt hr)]
  · simp only [contract_diag_coulomb_heap, heapSet, heapAlloc, heapGet,
      contract_diag_coulomb, habs]
    simp [Nat.ne_of_lt hvec, Nat.ne_of_lt hab, heapGet]

/-- Witness for claim C10 at a concrete heap over the rationals. -/
theorem claim10_contract_diag_coulomb_no_mutation_witness :
    heapGet (contract_diag_coulomb_heap (K := ℚ) ⟨1, fun _ _ _ => 1⟩ 0 0 1
        (1, 1) none none none).1 0 0 0
      = heapGet (⟨1, fun _ _ _ => 1⟩ : Heap ℚ) 0 0 0 ∧
      (contract_diag_coulomb_heap (K := ℚ) ⟨1, fun _ _ _ => 1⟩ 0 0 1 (1, 1)
          none none none).2 0
        = contract_diag_coulomb
            (fun x => heapGet (⟨1, fun _ _ _ => 1⟩ : Heap ℚ) 0 0 x)
            (heapGet (⟨1, fun _ _ _ => 1⟩ : Heap ℚ) 0) 1 (1, 1)
            (Option.map (fun rr => heapGet (⟨1, fun _ _ _ => 1⟩ : Heap ℚ) rr)
              none) none none 0 :=
  claim10_contract_diag_coulomb_no_mutation ⟨1, fun _ _ _ => 1⟩ 0 0 1 (1, 1)
    none none none 0 0 0 0 (by decide) (by decide) (by decide)

/-- Claim C5: for valid sector counts, get_dimension returns exactly the
product of binomials C(norb, n_alpha) * C(norb, n_beta), computed in exact
integer arithmetic. -/
theorem claim5_get_dimension_eq_binomial_product (norb : Nat) (na nb : Int)
    (h1 : 0 ≤ na) (h2 : na ≤ norb) (h3 : 0 ≤ nb) (h4 : nb ≤ norb) :
    get_dimension norb (na, nb) =
      Nat.choose norb na.toNat * Nat.choose norb nb.toNat := by
  have ha := comb_eq_choose norb na.toNat
  have hb := comb_eq_choose norb nb.toNat
  rw [Int.toNat_of_nonneg h1] at ha
  rw [Int.toNat_of_nonneg h3] at hb
  rw [get_dimension, ha, hb]

/-- Witness for claim C5 at a concrete input. -/
theorem claim5_get_dimension_eq_binomial_product_witness :
    (0 : Int) ≤ 2 ∧ (2 : Int) ≤ 5 ∧ (0 : Int) ≤ 3 ∧ (3 : Int) ≤ 5 ∧
      get_dimension 5 (2, 3) = Nat.choose 5 2 * Nat.choose 5 3 :=
  ⟨by decide, by decide, by decide, by decide,
    claim5_get_dimension_eq_binomial_product 5 2 3 (by decide) (by decide)
      (by decide) (by decide)⟩

/-- Claim C6, counterexample: with a sector particle count exceeding norb,
get_dimension does not report an error; it returns the number 0 (the
scipy exact comb returns 0 out of range, and no check raises). -/
theorem claim6_counterexample_returns_number :
    get_dimension 3 (5, 1) = 0 := by decide

/-- Claim C6 as amended: whenever a sector particle count is negative or
exceeds norb, get_dimension returns 0 instead of signalling an error. -/
theorem claim6_amended_out_of_range_returns_zero (norb : Nat) (na nb : Int)
    (h : na < 0 ∨ (norb : Int) < na ∨ nb < 0 ∨ (norb : Int) < nb) :
    get_dimension norb (na, nb) = 0 := by
  rw [get_dimension]
  rcases h with h | h | h | h
  · rw [comb, if_pos (Or.inl h), Nat.zero_mul]
  · rw [comb, if_pos (Or.inr h), Nat.zero_mul]
  · rw [show comb norb nb = 0 from by rw [comb, if_pos (Or.inl h)],
      Nat.mul_zero]
  · rw [show comb norb nb = 0 from by rw [comb, if_pos (Or.inr h)],
      Nat.mul_zero]

/-- Witness for the amended claim C6 at a concrete input. -/
theorem claim6_amended_out_of_range_returns_zero_witness :
    get_dimension 2 (-1, 0) = 0 :=
  claim6_amended_out_of_range_returns_zero 2 (-1) 0 (by decide)

/-- Claim C4: a single total particle count n supplied to contract_2e is
split as nelecb = floor (n / 2) and neleca = n - nelecb, and the whole
computation then proceeds exactly as if that pair had been supplied. -/
theorem claim4_contract_2e_total_particle_split {K : Type} [CommRing K]
    (genLink : Nat → Nat → LinkIndex) (eri : Nat → Nat → Nat → Nat → K)
    (fcivec : Nat → K) (norb n : Nat)
    (li : Option (LinkIndex × LinkIndex)) :
    nelec_pair (.total n) = (n - n / 2, n / 2) ∧
      contract_2e genLink eri fcivec norb (.total n) li =
        contract_2e genLink eri fcivec norb (.pair (n - n / 2, n / 2)) li :=
  ⟨rfl, rfl⟩

/-- Claim C9: contract_2e applied with an all-zero two-body tensor returns
the zero vector, for every link index and every input vector. -/
theorem claim9_contract_2e_zero_tensor {K : Type} [CommRing K]
    (genLink : Nat → Nat → LinkIndex) (fcivec : Nat → K) (norb : Nat)
    (nelec : NelecArg) (li : Option (LinkIndex × LinkIndex)) :
    contract_2e genLink (fun _ _ _ _ => (0 : K)) fcivec norb nelec li =
      fun _ => 0 := by
  funext k
  simp [contract_2e, c2e_out, c2e_t1p]

/-- Claim C8: applying the operators returned by diag_coulomb_to_linop and
num_op_sum_to_linop (forward or adjoint) to a vector gives exactly the
output of the corresponding direct contraction call with the same
arguments; the adapters precompute the same canonical occupation lists the
direct calls default to. -/
theorem claim8_adapters_match_direct_contractions {K : Type} [Field K]
    (mat : Nat → Nat → K) (coeffs : Nat → K) (dt1 dt2 : DType) (norb : Nat)
    (nelec : Nat × Nat) (matAB : Option (Nat → Nat → K)) (v : Nat → K) :
    (diag_coulomb_to_linop mat dt1 norb nelec matAB).matvec v =
        contract_diag_coulomb v mat norb nelec matAB none none ∧
      (diag_coulomb_to_linop mat dt1 norb nelec matAB).rmatvec v =
        contract_diag_coulomb v mat norb nelec matAB none none ∧
      (num_op_sum_to_linop coeffs dt2 norb nelec).matvec v =
        contract_num_op_sum v coeffs norb nelec none none ∧
      (num_op_sum_to_linop coeffs dt2 norb nelec).rmatvec v =
        contract_num_op_sum v coeffs norb nelec none none :=
  ⟨rfl, rfl, rfl, rfl⟩

/-- Claim C7, counterexample: one_body_tensor_to_linop supplied with a
real (float64) tensor declares the complex128 dtype, not the dtype of the
supplied tensor. -/
theorem claim7_counterexample_one_body_dtype :
    (one_body_tensor_to_linop (fun _ _ => []) (fun _ _ => 0) DType.float64 1
        (1, 1)).dtype = DType.complex128 ∧
      DType.complex128 ≠ DType.float64 :=
  ⟨rfl, by decide⟩

/-- Claim C1: contract_diag_coulomb applied to a single Slater-determinant
basis vector with occupied sets O_alpha, O_beta returns that vector scaled
by the eigenvalue one half of the double sum of the symmetric matrix over
O_alpha, plus one half of its double sum over O_beta, plus the full
cross double sum of the cross-spin matrix, which defaults to the same-spin
matrix when not supplied; the internal diagonal pre-halving combined with
the once-per-unordered-pair kernel summation realizes exactly these
half-weighted double sums of the original matrix. -/
theorem claim1_contract_diag_coulomb_slater_determinant {K : Type} [Field K]
    [CharZero K] (norb na nb : Nat) (mat : Nat → Nat → K)
    (matAB : Option (Nat → Nat → K)) (ia ib k : Nat)
    (hsym : ∀ i j, mat i j = mat j i) (hia : ia < comb norb (na : Int))
    (hib : ib < comb norb (nb : Int)) :
    contract_diag_coulomb (basis (ia * comb norb (nb : Int) + ib)) mat norb
        (na, nb) matAB none none k
      = ((1 / 2) * (∑ x ∈ ((gen_occslst norb na).getD ia []).toFinset,
            ∑ y ∈ ((gen_occslst norb na).getD ia []).toFinset, mat x y)
          + (1 / 2) * (∑ x ∈ ((gen_occslst norb nb).getD ib []).toFinset,
              ∑ y ∈ ((gen_occslst norb nb).getD ib []).toFinset, mat x y)
          + ∑ x ∈ ((gen_occslst norb na).getD ia []).toFinset,
              ∑ y ∈ ((gen_occslst norb nb).getD ib []).toFinset,
                (matAB.getD mat) x y)
        * basis (ia * comb norb (nb : Int) + ib) k := by
  obtain ⟨hndA, hltA⟩ := gen_occslst_getD_props norb na ia hia
  obtain ⟨hndB, hltB⟩ := gen_occslst_getD_props norb nb ib hib
  simp only [contract_diag_coulomb, contract_diag_coulomb_into_buffer,
    Option.getD_none, zero_add]
  rw [flat_recompose]
  by_cases hk : k = ia * comb norb (nb : Int) + ib
  · subst hk
    rw [flat_div ia ib _ hib, flat_mod ia ib _ hib]
    rw [same_spin_sum_halve_diag norb mat hsym _ hndA hltA,
      same_spin_sum_halve_diag norb mat hsym _ hndB hltB,
      cross_sum_eq_toFinset (matAB.getD mat) _ _ hndA hndB]
  · have hb0 : basis (K := K) (ia * comb norb (nb : Int) + ib) k = 0 := by
      simp [basis, hk]
    rw [hb0, mul_zero, mul_zero]

/-- Witness for claim C1 at a concrete input over the rationals. -/
theorem claim1_contract_diag_coulomb_slater_determinant_witness :
    0 < comb 2 (1 : Int) ∧
      contract_diag_coulomb (K := ℚ) (basis (0 * comb 2 (1 : Int) + 0))
          (fun _ _ => 1) 2 (1, 1) (some fun _ _ => 1) none none 0
        = ((1 / 2) * (∑ x ∈ ((gen_occslst 2 1).getD 0 []).toFinset,
              ∑ y ∈ ((gen_occslst 2 1).getD 0 []).toFinset,
                (fun _ _ => (1 : ℚ)) x y)
            + (1 / 2) * (∑ x ∈ ((gen_occslst 2 1).getD 0 []).toFinset,
                ∑ y ∈ ((gen_occslst 2 1).getD 0 []).toFinset,
                  (fun _ _ => (1 : ℚ)) x y)
            + ∑ x ∈ ((gen_occslst 2 1).getD 0 []).toFinset,
                ∑ y ∈ ((gen_occslst 2 1).getD 0 []).toFinset,
                  ((some fun _ _ => (1 : ℚ)).getD (fun _ _ => 1)) x y)
          * basis (0 * comb 2 (1 : Int) + 0) 0 :=
  ⟨by decide,
    claim1_contract_diag_coulomb_slater_determinant 2 1 1 (fun _ _ => 1)
      (some fun _ _ => 1) 0 0 0 (fun _ _ => rfl) (by decide) (by decide)⟩

/-- Claim C2, counterexample: with one orbital occupied in both spin
sectors, contract_num_op_sum does not scale the determinant by the sum of
the coefficients over the set union of the occupied sets; the shared
orbital counts twice (code gives 2, the set-union formula gives 1). -/
theorem claim2_counterexample_set_union_eigenvalue :
    contract_num_op_sum (K := ℤ) (basis 0) (fun _ => 1) 1 (1, 1) none none 0
      ≠ (∑ x ∈ (((gen_occslst 1 1).getD 0 []).toFinset ∪
            ((gen_occslst 1 1).getD 0 []).toFinset), (fun _ => (1 : ℤ)) x)
        * basis 0 0 := by
  decide

/-- Claim C2 as amended: contract_num_op_sum applied to a single
Slater-determinant basis vector returns that vector scaled by the sum of
the coefficients of the occupied alpha orbitals plus the sum over the
occupied beta orbitals, so an orbital occupied in both sectors
contributes twice. -/
theorem claim2_amended_num_op_sum_slater {K : Type} [CommRing K]
    (norb na nb : Nat) (coeffs : Nat → K) (ia ib k : Nat)
    (hia : ia < comb norb (na : Int)) (hib : ib < comb norb (nb : Int)) :
    contract_num_op_sum (basis (ia * comb norb (nb : Int) + ib)) coeffs norb
        (na, nb) none none k
      = ((∑ x ∈ ((gen_occslst norb na).getD ia []).toFinset, coeffs x)
          + ∑ x ∈ ((gen_occslst norb nb).getD ib []).toFinset, coeffs x)
        * basis (ia * comb norb (nb : Int) + ib) k := by
  obtain ⟨hndA, _⟩ := gen_occslst_getD_props norb na ia hia
  obtain ⟨hndB, _⟩ := gen_occslst_getD_props norb nb ib hib
  simp only [contract_num_op_sum, contract_num_op_sum_spin_into_buffer,
    Option.getD_none, zero_add]
  rw [flat_recompose]
  by_cases hk : k = ia * comb norb (nb : Int) + ib
  · subst hk
    rw [flat_div ia ib _ hib, flat_mod ia ib _ hib]
    rw [occ_coeff_sum_eq_toFinset coeffs _ hndA,
      occ_coeff_sum_eq_toFinset coeffs _ hndB, add_mul]
  · have hb0 : basis (K := K) (ia * comb norb (nb : Int) + ib) k = 0 := by
      simp [basis, hk]
    rw [hb0, mul_zero, mul_zero, mul_zero, add_zero]

/-- Witness for the amended claim C2 at a concrete input over the
integers. -/
theorem claim2_amended_num_op_sum_slater_witness :
    0 < comb 2 (1 : Int) ∧
      contract_num_op_sum (K := ℤ) (basis (0 * comb 2 (1 : Int) + 0))
          (fun _ => 1) 2 (1, 1) none none 0
        = ((∑ x ∈ ((gen_occslst 2 1).getD 0 []).toFinset,
              (fun _ => (1 : ℤ)) x)
            + ∑ x ∈ ((gen_occslst 2 1).getD 0 []).toFinset,
                (fun _ => (1 : ℤ)) x)
          * basis (0 * comb 2 (1 : Int) + 0) 0 :=
  ⟨by decide,
    claim2_amended_num_op_sum_slater 2 1 1 (fun _ => 1) 0 0 0 (by decide)
      (by decide)⟩

/-- Claim C7 as amended: get_hamiltonian_linop declares the dtype of the
one-body tensor, diag_coulomb_to_linop that of the matrix, and
num_op_sum_to_linop that of the coefficient vector, while
one_body_tensor_to_linop always declares complex128 regardless of the
dtype of the supplied tensor. -/
theorem claim7_amended_declared_dtypes {K : Type} [Field K]
    (genLink genLinkC : Nat → Nat → LinkIndex)
    (absorb : (Nat → Nat → K) → (Nat → Nat → Nat → Nat → K) → Nat →
      Nat × Nat → K → (Nat → Nat → Nat → Nat → K))
    (one_body : Nat → Nat → K) (two_body : Nat → Nat → Nat → Nat → K)
    (M : Nat → Nat → ℂ) (mat : Nat → Nat → K) (coeffs : Nat → K)
    (obDt mDt cDt tDt : DType) (norb : Nat) (nelec : Nat × Nat)
    (matAB : Option (Nat → Nat → K)) :
    (get_hamiltonian_linop genLink absorb one_body obDt two_body norb
        nelec).dtype = obDt ∧
      (diag_coulomb_to_linop mat mDt norb nelec matAB).dtype = mDt ∧
      (num_op_sum_to_linop coeffs cDt norb nelec).dtype = cDt ∧
      (one_body_tensor_to_linop genLinkC M tDt norb nelec).dtype =
        DType.complex128 :=
  ⟨rfl, rfl, rfl, rfl⟩

end FfsimFci
